import Mathlib

/-!
Verification of the MinHash + LSH deduplication engine
(`src/dedup_minhash.py`) against its natural-language specification.

The orchestrator (`main`), the shingle extraction inside `create_minhash`,
the exact-duplicate stage, the query-then-insert loop, the cluster map and
the statistics are translated directly from the Python source.  The MinHash
signature builder and the `MinHashLSH` index internals live in the
third-party `datasketch` dependency, which is not part of the repository's
sources; those parts are modelled from the specification (sections 4.2,
4.3, 7 and 9) and are marked as such in their doc comments.  Thresholds
are represented as explicit rational pairs `numerator / denominator` so
that every definition evaluates inside the kernel.
-/

/-- A document as consumed by the dedup loop: the precomputed `sha256`
field, the optional `text_clean` field and the mandatory `text` field
(the loop reads `item.get('text_clean', item['text'])`). -/
structure Doc where
  sha256 : String
  text_clean : Option String
  text : String
deriving DecidableEq, Repr

/-- Effective text of a document: `item.get('text_clean', item['text'])`. -/
def textOf (d : Doc) : String := d.text_clean.getD d.text

/-- Split a lower-cased character stream on whitespace runs, accumulating
the current word in reverse; empty fragments are dropped, exactly as
Python's argumentless `str.split` does. -/
def splitWsAux : List Char → List Char → List String
  | [], acc => if acc.isEmpty then [] else [String.mk acc.reverse]
  | c :: cs, acc =>
    if c.isWhitespace then
      (if acc.isEmpty then [] else [String.mk acc.reverse]) ++ splitWsAux cs []
    else splitWsAux cs (c :: acc)

/-- Token list: Python `text.lower().split()` — lower-case, split on
whitespace runs, no empty tokens. -/
def tokens (text : String) : List String :=
  splitWsAux (text.data.map Char.toLower) []

/-- Python `' '.join(ws)`. -/
def joinSpace : List String → String
  | [] => ""
  | [w] => w
  | w :: ws => w ++ " " ++ joinSpace ws

/-- Shingle list from `create_minhash`:
`[' '.join(words[i:i+3]) for i in range(len(words)-2)]`.
Natural-number subtraction matches Python's empty `range` when fewer than
three tokens are present. -/
def shingles (text : String) : List String :=
  let words := tokens text
  (List.range (words.length - 2)).map
    (fun i => joinSpace ((words.drop i).take 3))

/-- Minimum of a list of naturals, `none` on the empty list. -/
def minOfList : List Nat → Option Nat
  | [] => none
  | x :: xs => some (xs.foldl Nat.min x)

/-- Modelled from the spec: the MinHash signature builder (section 4.2),
implemented in the `datasketch` dependency and absent from `src/`.  The
hash family `h` is the fixed seed table (one seed per permutation index);
`signature[i]` is the minimum of `h i` over all shingles, and the sentinel
`none` marks the "no data" value taken when the shingle set is empty. -/
def signature (h : Nat → String → Nat) (numPerm : Nat) (sh : List String) :
    List (Option Nat) :=
  (List.range numPerm).map (fun i => minOfList (sh.map (h i)))

/-- The `create_minhash` function of the source: shingle the text, then
build the MinHash signature over the shingle list. -/
def create_minhash (h : Nat → String → Nat) (numPerm : Nat) (text : String) :
    List (Option Nat) :=
  signature h numPerm (shingles text)

/-- A threshold value, represented as the fraction `num / den` (the
numerator may be negative, so that thresholds below zero are
expressible). -/
structure Frac where
  num : Int
  den : Nat
deriving DecidableEq, Repr

/-- Modelled from the spec: a threshold is valid when it lies in the
interval `(0, 1]` (section 7), i.e. its denominator is positive and
`0 < num / den ≤ 1`. -/
def validThreshold (t : Frac) : Prop :=
  0 < t.den ∧ 0 < t.num ∧ t.num ≤ (t.den : Int)

instance (t : Frac) : Decidable (validThreshold t) := by
  unfold validThreshold; infer_instance

/-- Strict order on threshold fractions: `a.num / a.den < b.num / b.den`
by cross-multiplication (positive denominators understood). -/
def fracLt (a b : Frac) : Prop :=
  a.num * (b.den : Int) < b.num * (a.den : Int)

instance (a b : Frac) : Decidable (fracLt a b) := by
  unfold fracLt; infer_instance

/-- Modelled from the spec: candidate band decompositions — all pairs
`(b, r)` with `b * r = numPerm` (section 9: "choose b, r with
b*r = num_perm"). -/
def divisorPairs (numPerm : Nat) : List (Nat × Nat) :=
  (List.range numPerm).filterMap (fun i =>
    if numPerm % (i + 1) = 0 then some (i + 1, numPerm / (i + 1)) else none)

/-- Numerator of the collision probability curve `1 − (1 − t^r)^b` of
section 4.3 evaluated at the threshold `t`, over denominator
`t.den ^ (r * b)`; exact integer arithmetic. -/
def curveNum (b r : Nat) (t : Frac) : Int :=
  (t.den : Int) ^ (r * b) - ((t.den : Int) ^ r - t.num ^ r) ^ b

/-- Denominator of the collision probability curve at `t`. -/
def curveDen (b r : Nat) (t : Frac) : Int := (t.den : Int) ^ (r * b)

/-- Modelled from the spec: compare `|curve_p(t) − 1/2| < |curve_q(t) − 1/2|`
by cross-multiplication — the band-parameter search of section 9 picks the
decomposition whose collision curve crosses closest to `1/2` at `s = t`. -/
def distLt (p q : Nat × Nat) (t : Frac) : Prop :=
  (2 * curveNum p.1 p.2 t - curveDen p.1 p.2 t).natAbs *
      (curveDen q.1 q.2 t).natAbs <
    (2 * curveNum q.1 q.2 t - curveDen q.1 q.2 t).natAbs *
      (curveDen p.1 p.2 t).natAbs

instance (p q : Nat × Nat) (t : Frac) : Decidable (distLt p q t) := by
  unfold distLt; infer_instance

/-- Modelled from the spec: derive the band parameters `(b, r)` from
`(numPerm, t)` — among the pairs with `b * r = numPerm`, the one whose
collision curve crosses closest to `1/2` at `s = t` (sections 4.3 and 9);
this derivation lives in the `datasketch` dependency, absent from `src/`. -/
def bandParams (numPerm : Nat) (t : Frac) : Nat × Nat :=
  (divisorPairs numPerm).foldl
    (fun best p => if distLt p best t then p else best)
    (numPerm, 1)

/-- Lookup in an association list of buckets, by decidable equality. -/
def findBucket (buckets : List ((Nat × List Nat) × Nat)) (k : Nat × List Nat) :
    Option Nat :=
  match buckets with
  | [] => none
  | (k2, v) :: rest => if k2 = k then some v else findBucket rest k

/-- Turn a list of optional values into an optional list: `some` of the
values when every entry is real, `none` as soon as a sentinel occurs. -/
def allSome : List (Option Nat) → Option (List Nat)
  | [] => some []
  | none :: _ => none
  | some x :: rest => (allSome rest).map (fun xs => x :: xs)

/-- Slice of a signature forming band `j` when each band has `r` rows. -/
def bandSlice (sig : List (Option Nat)) (r j : Nat) : List (Option Nat) :=
  (sig.drop (j * r)).take r

/-- First hit of `f` over a list of band indices. -/
def firstHit (f : Nat → Option Nat) : List Nat → Option Nat
  | [] => none
  | j :: rest =>
    match f j with
    | some v => some v
    | none => firstHit f rest

/-- Modelled from the spec: the LSH index state (section 4.3) — band count,
rows per band and the `(band_index, band_key) → first inserted id` map. -/
structure LSH where
  b : Nat
  r : Nat
  buckets : List ((Nat × List Nat) × Nat)
deriving DecidableEq, Repr

/-- Modelled from the spec: band key of band `j` — the tuple of the `r`
real values in that band, or no key at all when the band holds a sentinel
(an empty signature "never collides meaningfully", section 4.1). -/
def bandKeyOf (sig : List (Option Nat)) (r j : Nat) : Option (List Nat) :=
  allSome (bandSlice sig r j)

/-- Modelled from the spec: `query(signature)` — scan the bands in
ascending index order and return the first existing exemplar id, or
`none` when no band collides (section 4.3). -/
def LSH.query (l : LSH) (sig : List (Option Nat)) : Option Nat :=
  firstHit
    (fun j =>
      match bandKeyOf sig l.r j with
      | none => none
      | some key => findBucket l.buckets (j, key))
    (List.range l.b)

/-- Modelled from the spec: `insert(id, signature)` — record
`(band_index, band_key) → id` for every real band, only if no entry exists
yet for that exact key (section 4.3). -/
def LSH.insert (l : LSH) (id : Nat) (sig : List (Option Nat)) : LSH :=
  { l with
    buckets :=
      (List.range l.b).foldl
        (fun acc j =>
          match bandKeyOf sig l.r j with
          | none => acc
          | some key =>
            match findBucket acc (j, key) with
            | some _ => acc
            | none => ((j, key), id) :: acc)
        l.buckets }

/-- The `defaultdict(list)` update `near_dupe_groups[g].append(idx)`:
extend the first group keyed `g`, or append a fresh singleton group. -/
def addToGroups : List (Nat × List Nat) → Nat → Nat → List (Nat × List Nat)
  | [], g, idx => [(g, [idx])]
  | (k, ms) :: rest, g, idx =>
    if k = g then (k, ms ++ [idx]) :: rest
    else (k, ms) :: addToGroups rest g idx

/-- Mutable state of the dedup loop of `main`: the LSH index, the
`sha256_seen` set, the keys of the `minhashes` dict, the
`near_dupe_groups` map (in insertion order) and the `exact_dupes`
counter. -/
structure DedupState where
  lsh : LSH
  sha256_seen : List String
  minhashes : List Nat
  near_dupe_groups : List (Nat × List Nat)
  exact_dupes : Nat
deriving DecidableEq, Repr

/-- One iteration of the loop body of `main` on document `d` at index
`idx`: drop exact `sha256` duplicates, otherwise compute the MinHash,
query the index, and either join the matched exemplar's group or insert
into the index and open a singleton group. -/
def step (h : Nat → String → Nat) (numPerm : Nat) (st : DedupState)
    (idx : Nat) (d : Doc) : DedupState :=
  if d.sha256 ∈ st.sha256_seen then
    { st with exact_dupes := st.exact_dupes + 1 }
  else
    let sig := create_minhash h numPerm (textOf d)
    let st1 := { st with
      sha256_seen := st.sha256_seen ++ [d.sha256]
      minhashes := st.minhashes ++ [idx] }
    match st1.lsh.query sig with
    | some g => { st1 with near_dupe_groups := addToGroups st1.near_dupe_groups g idx }
    | none =>
      { st1 with
        lsh := st1.lsh.insert idx sig
        near_dupe_groups := addToGroups st1.near_dupe_groups idx idx }

/-- Run the loop body over a document list, the first document receiving
index `n`. -/
def processFrom (h : Nat → String → Nat) (numPerm : Nat) (st : DedupState)
    (n : Nat) : List Doc → DedupState
  | [] => st
  | d :: ds => processFrom h numPerm (step h numPerm st n d) (n + 1) ds

/-- Initial loop state: empty index with band parameters `(b, r)`, nothing
seen, no groups, zero exact duplicates. -/
def initState (b r : Nat) : DedupState :=
  { lsh := { b := b, r := r, buckets := [] }
    sha256_seen := []
    minhashes := []
    near_dupe_groups := []
    exact_dupes := 0 }

/-- Minimum of a nonempty list of naturals (Python `min(group)`; groups
are never empty, so the default for `[]` is never exercised). -/
def listMin : List Nat → Nat
  | [] => 0
  | x :: xs => xs.foldl Nat.min x

/-- The `unique_indices = [min(group) for group in near_dupe_groups.values()]`
list: the retained document indices. -/
def unique_indices (st : DedupState) : List Nat :=
  st.near_dupe_groups.map (fun p => listMin p.2)

/-- The statistics record written by `main`: `exact_duplicates`,
`near_duplicates = len(minhashes) - len(unique_indices)`, `unique_items`,
`total_removed`.  The subtraction is carried out in `Int`, as in Python. -/
structure Stats where
  exact_duplicates : Nat
  near_duplicates : Int
  unique_items : Nat
  total_removed : Int
deriving DecidableEq, Repr

/-- Statistics of a final loop state, exactly as `main` computes them. -/
def statsOf (st : DedupState) : Stats :=
  { exact_duplicates := st.exact_dupes
    near_duplicates := (st.minhashes.length : Int) - (unique_indices st).length
    unique_items := (unique_indices st).length
    total_removed :=
      (st.exact_dupes : Int) +
        ((st.minhashes.length : Int) - (unique_indices st).length) }

/-- Modelled from the spec: the configuration error taxonomy of section 7
(`ConfigError`, fatal at startup); the threshold check itself is performed
inside the `datasketch` constructor, absent from `src/`. -/
inductive ConfigError where
  | invalidThreshold
deriving DecidableEq, Repr

/-- Observable output of a run: the retained indices and the statistics. -/
structure RunResult where
  retained : List Nat
  stats : Stats
deriving DecidableEq, Repr

/-- Final loop state of a full run: band parameters derived from
`(numPerm, t)`, loop started on the empty state at index `0`. -/
def runState (h : Nat → String → Nat) (numPerm : Nat) (t : Frac)
    (docs : List Doc) : DedupState :=
  processFrom h numPerm
    (initState (bandParams numPerm t).1 (bandParams numPerm t).2) 0 docs

/-- The whole pipeline of `main` as a function from configuration and
document list to either a startup `ConfigError` (threshold outside
`(0, 1]`, modelled from the spec, section 7) or the retained indices and
statistics. -/
def runDedup (h : Nat → String → Nat) (numPerm : Nat) (t : Frac)
    (docs : List Doc) : Except ConfigError RunResult :=
  if validThreshold t then
    Except.ok
      { retained := unique_indices (runState h numPerm t docs)
        stats := statsOf (runState h numPerm t docs) }
  else Except.error ConfigError.invalidThreshold

/-- Projection of a run outcome to its retained list, `none` on error. -/
def retainedOfRun (e : Except ConfigError RunResult) : Option (List Nat) :=
  match e with
  | Except.ok r => some r.retained
  | Except.error _ => none

/-- Concatenation of all member lists of the cluster map. -/
def allMembers : List (Nat × List Nat) → List Nat
  | [] => []
  | (_, ms) :: rest => ms ++ allMembers rest

/-- Loop invariant of the dedup loop, at the point where the next document
would receive index `n`: every group starts with its key and all later
members are strictly larger; every id tracked anywhere is below `n`; each
id occurs in at most one group, and only once there; every bucket occupant
is a group key; and every group member survived the exact stage. -/
structure DedupInv (n : Nat) (st : DedupState) : Prop where
  headKey : ∀ p ∈ st.near_dupe_groups, ∃ tl, p.2 = p.1 :: tl ∧ ∀ m ∈ tl, p.1 < m
  idsLt : ∀ i ∈ allMembers st.near_dupe_groups, i < n
  mhLt : ∀ i ∈ st.minhashes, i < n
  nodupM : (allMembers st.near_dupe_groups).Nodup
  bucketVals : ∀ k v, findBucket st.lsh.buckets k = some v →
    v ∈ st.near_dupe_groups.map Prod.fst
  memMh : ∀ i ∈ allMembers st.near_dupe_groups, i ∈ st.minhashes

/-- A constant hash family: every permutation sends every shingle to `0`
(a degenerate but legal seed table, used for concrete scenarios). -/
def hZero (_ : Nat) (_ : String) : Nat := 0

/-- A concrete hash family on four one-shingle documents, written as an
explicit seed table; used to exhibit threshold behaviour. -/
def cexHash (i : Nat) (s : String) : Nat :=
  if s = "p p p" then [40, 41, 42, 43, 14, 45, 46, 47].getD i 0
  else if s = "q q q" then [10, 11, 12, 13, 14, 15, 16, 17].getD i 0
  else if s = "r r r" then [10, 11, 20, 21, 22, 23, 24, 25].getD i 0
  else [30, 31, 12, 13, 32, 33, 34, 35].getD i 0

/-- Four documents with distinct hashes and three-token texts (one shingle
each), whose signatures under `cexHash` realise a non-monotone clustering
across band decompositions. -/
def cexDocs : List Doc :=
  [{ sha256 := "s0", text_clean := none, text := "p p p" },
   { sha256 := "s1", text_clean := none, text := "q q q" },
   { sha256 := "s2", text_clean := none, text := "r r r" },
   { sha256 := "s3", text_clean := none, text := "s s s" }]

/-- A small mid-run loop state with one occupied bucket and one cluster,
used to exercise the index invariants on concrete inputs. -/
def demoState : DedupState :=
  { lsh := { b := 1, r := 1, buckets := [((0, [0]), 3)] }
    sha256_seen := ["s"]
    minhashes := [3]
    near_dupe_groups := [(3, [3])]
    exact_dupes := 0 }


@[simp] lemma processFrom_nil (h : Nat → String → Nat) (np : Nat)
    (st : DedupState) (n : Nat) : processFrom h np st n [] = st := rfl

@[simp] lemma processFrom_cons (h : Nat → String → Nat) (np : Nat)
    (st : DedupState) (n : Nat) (d : Doc) (ds : List Doc) :
    processFrom h np st n (d :: ds) =
      processFrom h np (step h np st n d) (n + 1) ds := rfl

lemma processFrom_append (h : Nat → String → Nat) (np : Nat) :
    ∀ (l1 l2 : List Doc) (st : DedupState) (n : Nat),
      processFrom h np st n (l1 ++ l2) =
        processFrom h np (processFrom h np st n l1) (n + l1.length) l2
  | [], l2, st, n => by simp
  | d :: l1, l2, st, n => by
    simp only [List.cons_append, processFrom_cons, List.length_cons]
    rw [processFrom_append h np l1 l2]
    have hn : n + 1 + l1.length = n + (l1.length + 1) := by omega
    rw [hn]

lemma step_of_dup (h : Nat → String → Nat) (np : Nat) (st : DedupState)
    (idx : Nat) (d : Doc) (hd : d.sha256 ∈ st.sha256_seen) :
    step h np st idx d = { st with exact_dupes := st.exact_dupes + 1 } := by
  simp [step, hd]

lemma step_of_fresh_match (h : Nat → String → Nat) (np : Nat)
    (st : DedupState) (idx : Nat) (d : Doc) (g : Nat)
    (hd : d.sha256 ∉ st.sha256_seen)
    (hq : st.lsh.query (create_minhash h np (textOf d)) = some g) :
    step h np st idx d =
      { st with
          sha256_seen := st.sha256_seen ++ [d.sha256]
          minhashes := st.minhashes ++ [idx]
          near_dupe_groups := addToGroups st.near_dupe_groups g idx } := by
  simp [step, hd, hq]

lemma step_of_fresh_nomatch (h : Nat → String → Nat) (np : Nat)
    (st : DedupState) (idx : Nat) (d : Doc)
    (hd : d.sha256 ∉ st.sha256_seen)
    (hq : st.lsh.query (create_minhash h np (textOf d)) = none) :
    step h np st idx d =
      { st with
          lsh := st.lsh.insert idx (create_minhash h np (textOf d))
          sha256_seen := st.sha256_seen ++ [d.sha256]
          minhashes := st.minhashes ++ [idx]
          near_dupe_groups := addToGroups st.near_dupe_groups idx idx } := by
  simp [step, hd, hq]

lemma step_sha_seen (h : Nat → String → Nat) (np : Nat) (st : DedupState)
    (idx : Nat) (d : Doc) :
    (step h np st idx d).sha256_seen =
      if d.sha256 ∈ st.sha256_seen then st.sha256_seen
      else st.sha256_seen ++ [d.sha256] := by
  by_cases hd : d.sha256 ∈ st.sha256_seen
  · rw [step_of_dup h np st idx d hd, if_pos hd]
  · rw [if_neg hd]
    cases hq : st.lsh.query (create_minhash h np (textOf d)) with
    | none => rw [step_of_fresh_nomatch h np st idx d hd hq]
    | some g => rw [step_of_fresh_match h np st idx d g hd hq]

lemma step_minhashes (h : Nat → String → Nat) (np : Nat) (st : DedupState)
    (idx : Nat) (d : Doc) :
    (step h np st idx d).minhashes =
      if d.sha256 ∈ st.sha256_seen then st.minhashes
      else st.minhashes ++ [idx] := by
  by_cases hd : d.sha256 ∈ st.sha256_seen
  · rw [step_of_dup h np st idx d hd, if_pos hd]
  · rw [if_neg hd]
    cases hq : st.lsh.query (create_minhash h np (textOf d)) with
    | none => rw [step_of_fresh_nomatch h np st idx d hd hq]
    | some g => rw [step_of_fresh_match h np st idx d g hd hq]

lemma step_exact_dupes (h : Nat → String → Nat) (np : Nat) (st : DedupState)
    (idx : Nat) (d : Doc) :
    (step h np st idx d).exact_dupes =
      if d.sha256 ∈ st.sha256_seen then st.exact_dupes + 1
      else st.exact_dupes := by
  by_cases hd : d.sha256 ∈ st.sha256_seen
  · rw [step_of_dup h np st idx d hd, if_pos hd]
  · rw [if_neg hd]
    cases hq : st.lsh.query (create_minhash h np (textOf d)) with
    | none => rw [step_of_fresh_nomatch h np st idx d hd hq]
    | some g => rw [step_of_fresh_match h np st idx d g hd hq]

lemma step_lsh_b (h : Nat → String → Nat) (np : Nat) (st : DedupState)
    (idx : Nat) (d : Doc) : (step h np st idx d).lsh.b = st.lsh.b := by
  by_cases hd : d.sha256 ∈ st.sha256_seen
  · rw [step_of_dup h np st idx d hd]
  · cases hq : st.lsh.query (create_minhash h np (textOf d)) with
    | none => rw [step_of_fresh_nomatch h np st idx d hd hq]; rfl
    | some g => rw [step_of_fresh_match h np st idx d g hd hq]

lemma step_lsh_r (h : Nat → String → Nat) (np : Nat) (st : DedupState)
    (idx : Nat) (d : Doc) : (step h np st idx d).lsh.r = st.lsh.r := by
  by_cases hd : d.sha256 ∈ st.sha256_seen
  · rw [step_of_dup h np st idx d hd]
  · cases hq : st.lsh.query (create_minhash h np (textOf d)) with
    | none => rw [step_of_fresh_nomatch h np st idx d hd hq]; rfl
    | some g => rw [step_of_fresh_match h np st idx d g hd hq]

lemma mem_allMembers_of_mem (p : Nat × List Nat) (m : Nat)
    (gs : List (Nat × List Nat)) (hp : p ∈ gs) (hm : m ∈ p.2) :
    m ∈ allMembers gs := by
  induction gs with
  | nil => cases hp
  | cons q rest ih =>
    obtain ⟨k, ms⟩ := q
    show m ∈ ms ++ allMembers rest
    rcases List.mem_cons.mp hp with hpe | hpe
    · rw [hpe] at hm
      exact List.mem_append.mpr (Or.inl hm)
    · exact List.mem_append.mpr (Or.inr (ih hpe))

lemma key_mem_allMembers (gs : List (Nat × List Nat)) (p : Nat × List Nat)
    (hp : p ∈ gs) (hk : ∃ tl, p.2 = p.1 :: tl ∧ ∀ m ∈ tl, p.1 < m) :
    p.1 ∈ allMembers gs := by
  obtain ⟨tl, htl, -⟩ := hk
  exact mem_allMembers_of_mem p p.1 gs hp (by rw [htl]; exact List.mem_cons_self _ _)

lemma addToGroups_keys_sub (g idx k : Nat) :
    ∀ gs : List (Nat × List Nat), k ∈ gs.map Prod.fst →
      k ∈ (addToGroups gs g idx).map Prod.fst
  | [], hk => by cases hk
  | (k2, ms) :: rest, hk => by
    unfold addToGroups
    by_cases hk2 : k2 = g
    · rw [if_pos hk2]
      simpa using hk
    · rw [if_neg hk2]
      rcases List.mem_map.mp hk with ⟨p, hp, hpk⟩
      rcases List.mem_cons.mp hp with hp | hp
      · subst hp; simp [← hpk]
      · simp only [List.map_cons, List.mem_cons]
        exact Or.inr (addToGroups_keys_sub g idx k rest
          (List.mem_map.mpr ⟨p, hp, hpk⟩))

lemma addToGroups_self_key (g idx : Nat) :
    ∀ gs : List (Nat × List Nat), g ∈ (addToGroups gs g idx).map Prod.fst
  | [] => by simp [addToGroups]
  | (k2, ms) :: rest => by
    unfold addToGroups
    by_cases hk2 : k2 = g
    · rw [if_pos hk2]; simp [hk2]
    · rw [if_neg hk2]
      simp only [List.map_cons, List.mem_cons]
      exact Or.inr (addToGroups_self_key g idx rest)

lemma addToGroups_allMembers_perm (g idx : Nat) :
    ∀ gs : List (Nat × List Nat),
      (allMembers (addToGroups gs g idx)).Perm (allMembers gs ++ [idx])
  | [] => by simp [addToGroups, allMembers]
  | (k2, ms) :: rest => by
    unfold addToGroups
    by_cases hk2 : k2 = g
    · rw [if_pos hk2]
      show ((ms ++ [idx]) ++ allMembers rest).Perm ((ms ++ allMembers rest) ++ [idx])
      simp only [List.append_assoc]
      exact List.Perm.append_left ms List.perm_append_comm
    · rw [if_neg hk2]
      show (ms ++ allMembers (addToGroups rest g idx)).Perm
        ((ms ++ allMembers rest) ++ [idx])
      simp only [List.append_assoc]
      exact List.Perm.append_left ms (addToGroups_allMembers_perm g idx rest)

lemma addToGroups_mem_cases (g idx : Nat) (p : Nat × List Nat) :
    ∀ gs : List (Nat × List Nat), p ∈ addToGroups gs g idx →
      p ∈ gs ∨ (∃ ms, (g, ms) ∈ gs ∧ p = (g, ms ++ [idx])) ∨
        (g ∉ gs.map Prod.fst ∧ p = (g, [idx]))
  | [], hp => by
    simp only [addToGroups, List.mem_singleton] at hp
    exact Or.inr (Or.inr ⟨by simp, hp⟩)
  | (k2, ms) :: rest, hp => by
    unfold addToGroups at hp
    by_cases hk2 : k2 = g
    · rw [if_pos hk2] at hp
      subst hk2
      rcases List.mem_cons.mp hp with hp | hp
      · exact Or.inr (Or.inl ⟨ms, List.mem_cons_self _ _, hp⟩)
      · exact Or.inl (List.mem_cons_of_mem _ hp)
    · rw [if_neg hk2] at hp
      rcases List.mem_cons.mp hp with hp | hp
      · exact Or.inl (by rw [hp]; exact List.mem_cons_self _ _)
      · rcases addToGroups_mem_cases g idx p rest hp with hc | hc | hc
        · exact Or.inl (List.mem_cons_of_mem _ hc)
        · obtain ⟨ms2, hms2, hpe⟩ := hc
          exact Or.inr (Or.inl ⟨ms2, List.mem_cons_of_mem _ hms2, hpe⟩)
        · obtain ⟨hg, hpe⟩ := hc
          refine Or.inr (Or.inr ⟨?_, hpe⟩)
          simp only [List.map_cons, List.mem_cons]
          rintro (hgk | hgk)
          · exact hk2 hgk.symm
          · exact hg hgk

lemma addToGroups_extends (g idx : Nat) (p : Nat × List Nat) :
    ∀ gs : List (Nat × List Nat), p ∈ gs →
      ∃ q, q ∈ addToGroups gs g idx ∧ q.1 = p.1 ∧ ∃ ext, q.2 = p.2 ++ ext
  | [], hp => by cases hp
  | (k2, ms) :: rest, hp => by
    unfold addToGroups
    by_cases hk2 : k2 = g
    · rw [if_pos hk2]
      rcases List.mem_cons.mp hp with hp | hp
      · exact ⟨(k2, ms ++ [idx]), List.mem_cons_self _ _,
          by rw [hp], ⟨[idx], by rw [hp]⟩⟩
      · exact ⟨p, List.mem_cons_of_mem _ hp, rfl, ⟨[], by simp⟩⟩
    · rw [if_neg hk2]
      rcases List.mem_cons.mp hp with hp | hp
      · exact ⟨(k2, ms), List.mem_cons_self _ _, by rw [hp], ⟨[], by rw [hp]; simp⟩⟩
      · obtain ⟨q, hq, hq1, hq2⟩ := addToGroups_extends g idx p rest hp
        exact ⟨q, List.mem_cons_of_mem _ hq, hq1, hq2⟩

lemma listMin_of_head_lt (k : Nat) (tl : List Nat) (hlt : ∀ m ∈ tl, k < m) :
    listMin (k :: tl) = k := by
  show tl.foldl Nat.min k = k
  induction tl generalizing k with
  | nil => rfl
  | cons m tl ih =>
    show (m :: tl).foldl Nat.min k = k
    have hkm : Nat.min k m = k :=
      Nat.min_eq_left (Nat.le_of_lt (hlt m (List.mem_cons_self _ _)))
    show tl.foldl Nat.min (Nat.min k m) = k
    rw [hkm]
    exact ih k (fun x hx => hlt x (List.mem_cons_of_mem _ hx))

lemma group_eq_of_shared_member (a : Nat) (p q : Nat × List Nat) :
    ∀ gs : List (Nat × List Nat), (allMembers gs).Nodup →
      p ∈ gs → q ∈ gs → a ∈ p.2 → a ∈ q.2 → p = q
  | [], _, hp, _, _, _ => by cases hp
  | x :: rest, hnd, hp, hq, hap, haq => by
    have hnd2 : (x.2 ++ allMembers rest).Nodup := by
      obtain ⟨k, ms⟩ := x; exact hnd
    have hdisj := (List.nodup_append.mp hnd2).2.2
    rcases List.mem_cons.mp hp with hpe | hpe <;>
      rcases List.mem_cons.mp hq with hqe | hqe
    · rw [hpe, hqe]
    · exact absurd (mem_allMembers_of_mem q a rest hqe haq)
        (by rw [hpe] at hap; exact fun hmem => hdisj hap hmem)
    · exact absurd (mem_allMembers_of_mem p a rest hpe hap)
        (by rw [hqe] at haq; exact fun hmem => hdisj haq hmem)
    · exact group_eq_of_shared_member a p q rest
        (List.Nodup.of_append_right hnd2) hpe hqe hap haq

lemma firstHit_eq_some (f : Nat → Option Nat) (v : Nat) :
    ∀ js : List Nat, firstHit f js = some v → ∃ j ∈ js, f j = some v
  | [], hfh => by cases hfh
  | j :: rest, hfh => by
    unfold firstHit at hfh
    cases hfj : f j with
    | some w =>
      rw [hfj] at hfh
      exact ⟨j, List.mem_cons_self _ _, by rw [hfj, ← hfh]⟩
    | none =>
      rw [hfj] at hfh
      obtain ⟨j2, hj2, hfj2⟩ := firstHit_eq_some f v rest hfh
      exact ⟨j2, List.mem_cons_of_mem _ hj2, hfj2⟩

lemma firstHit_eq_none (f : Nat → Option Nat) :
    ∀ js : List Nat, (∀ j ∈ js, f j = none) → firstHit f js = none
  | [], _ => rfl
  | j :: rest, hall => by
    unfold firstHit
    rw [hall j (List.mem_cons_self _ _)]
    exact firstHit_eq_none f rest (fun x hx => hall x (List.mem_cons_of_mem _ hx))

lemma query_eq_some_bucket (l : LSH) (sig : List (Option Nat)) (v : Nat)
    (hq : l.query sig = some v) : ∃ k, findBucket l.buckets k = some v := by
  obtain ⟨j, -, hfj⟩ := firstHit_eq_some _ v _ hq
  cases hbk : bandKeyOf sig l.r j with
  | none => rw [hbk] at hfj; cases hfj
  | some key =>
    rw [hbk] at hfj
    exact ⟨(j, key), hfj⟩

lemma query_empty_buckets (b r : Nat) (sig : List (Option Nat)) :
    LSH.query { b := b, r := r, buckets := [] } sig = none := by
  apply firstHit_eq_none
  intro j _
  cases bandKeyOf sig r j <;> rfl

lemma findBucket_insertFold (id : Nat) (sig : List (Option Nat)) (r : Nat)
    (k : Nat × List Nat) (v : Nat) :
    ∀ (js : List Nat) (acc : List ((Nat × List Nat) × Nat)),
      findBucket acc k = some v →
      findBucket
        (js.foldl
          (fun acc j =>
            match bandKeyOf sig r j with
            | none => acc
            | some key =>
              match findBucket acc (j, key) with
              | some _ => acc
              | none => ((j, key), id) :: acc)
          acc) k = some v
  | [], acc, hacc => hacc
  | j :: rest, acc, hacc => by
    simp only [List.foldl_cons]
    apply findBucket_insertFold id sig r k v rest
    cases hbk : bandKeyOf sig r j with
    | none => simpa [hbk] using hacc
    | some key =>
      simp only [hbk]
      cases hfb : findBucket acc (j, key) with
      | some w => simpa using hacc
      | none =>
        simp only []
        have hne : (j, key) ≠ k := fun he => by
          rw [he, hacc] at hfb; cases hfb
        show findBucket (((j, key), id) :: acc) k = some v
        unfold findBucket
        rw [if_neg hne]
        exact hacc

lemma findBucket_insertFold_cases (id : Nat) (sig : List (Option Nat)) (r : Nat)
    (k : Nat × List Nat) (v : Nat) :
    ∀ (js : List Nat) (acc : List ((Nat × List Nat) × Nat)),
      findBucket
        (js.foldl
          (fun acc j =>
            match bandKeyOf sig r j with
            | none => acc
            | some key =>
              match findBucket acc (j, key) with
              | some _ => acc
              | none => ((j, key), id) :: acc)
          acc) k = some v →
      findBucket acc k = some v ∨ v = id
  | [], acc, hf => Or.inl hf
  | j :: rest, acc, hf => by
    simp only [List.foldl_cons] at hf
    rcases findBucket_insertFold_cases id sig r k v rest _ hf with hcase | hcase
    · cases hbk : bandKeyOf sig r j with
      | none => rw [hbk] at hcase; exact Or.inl hcase
      | some key =>
        rw [hbk] at hcase
        dsimp only at hcase
        cases hfb : findBucket acc (j, key) with
        | some w =>
          rw [hfb] at hcase
          exact Or.inl hcase
        | none =>
          rw [hfb] at hcase
          dsimp only at hcase
          by_cases hke : (j, key) = k
          · unfold findBucket at hcase
            rw [if_pos hke] at hcase
            exact Or.inr (by injection hcase with hv; exact hv.symm)
          · unfold findBucket at hcase
            rw [if_neg hke] at hcase
            exact Or.inl hcase
    · exact Or.inr hcase

lemma findBucket_insert_mono (l : LSH) (id : Nat) (sig : List (Option Nat))
    (k : Nat × List Nat) (v : Nat) (hv : findBucket l.buckets k = some v) :
    findBucket (l.insert id sig).buckets k = some v :=
  findBucket_insertFold id sig l.r k v (List.range l.b) l.buckets hv

lemma findBucket_insert_cases (l : LSH) (id : Nat) (sig : List (Option Nat))
    (k : Nat × List Nat) (v : Nat)
    (hv : findBucket (l.insert id sig).buckets k = some v) :
    findBucket l.buckets k = some v ∨ v = id :=
  findBucket_insertFold_cases id sig l.r k v (List.range l.b) l.buckets hv

lemma signature_length (h : Nat → String → Nat) (np : Nat) (sh : List String) :
    (signature h np sh).length = np := by
  simp [signature]

lemma mem_signature_nil (h : Nat → String → Nat) (np : Nat) (x : Option Nat)
    (hx : x ∈ signature h np []) : x = none := by
  unfold signature at hx
  rcases List.mem_map.mp hx with ⟨i, -, hi⟩
  rw [← hi]
  rfl

lemma shingles_nil_of_short (text : String)
    (htk : (tokens text).length < 3) : shingles text = [] := by
  have h0 : (tokens text).length - 2 = 0 := by omega
  simp [shingles, h0]

lemma bandKeyOf_allNone (sig : List (Option Nat)) (r j : Nat)
    (hall : ∀ x ∈ sig, x = none) (hlt : j * r < sig.length) (hr : 0 < r) :
    bandKeyOf sig r j = none := by
  unfold bandKeyOf bandSlice
  cases hdrop : sig.drop (j * r) with
  | nil =>
    have hlen := List.length_drop (j * r) sig
    rw [hdrop] at hlen
    simp at hlen
    omega
  | cons x xs =>
    have hx : x ∈ sig :=
      List.mem_of_mem_drop (by rw [hdrop]; exact List.mem_cons_self _ _)
    have hxn := hall x hx
    subst hxn
    obtain ⟨r2, hr2⟩ : ∃ r2, r = r2 + 1 := ⟨r - 1, by omega⟩
    rw [hr2, List.take_succ_cons]
    rfl

lemma query_allNone (l : LSH) (sig : List (Option Nat))
    (hall : ∀ x ∈ sig, x = none) (hlen : sig.length = l.b * l.r)
    (hr : 0 < l.r) : l.query sig = none := by
  apply firstHit_eq_none
  intro j hj
  have hjb : j < l.b := List.mem_range.mp hj
  have h1 : j * l.r + l.r ≤ l.b * l.r := by
    have h2 : (j + 1) * l.r ≤ l.b * l.r :=
      Nat.mul_le_mul_right l.r (Nat.succ_le_of_lt hjb)
    calc j * l.r + l.r = (j + 1) * l.r := by ring
      _ ≤ l.b * l.r := h2
  have hjr : j * l.r < sig.length := by rw [hlen]; omega
  rw [bandKeyOf_allNone sig l.r j hall hjr hr]

lemma insertFold_allNone (id : Nat) (sig : List (Option Nat)) (r : Nat) :
    ∀ (js : List Nat) (acc : List ((Nat × List Nat) × Nat)),
      (∀ j ∈ js, bandKeyOf sig r j = none) →
      js.foldl
        (fun acc j =>
          match bandKeyOf sig r j with
          | none => acc
          | some key =>
            match findBucket acc (j, key) with
            | some _ => acc
            | none => ((j, key), id) :: acc)
        acc = acc
  | [], acc, _ => rfl
  | j :: rest, acc, hall => by
    simp only [List.foldl_cons, hall j (List.mem_cons_self _ _)]
    exact insertFold_allNone id sig r rest acc
      (fun x hx => hall x (List.mem_cons_of_mem _ hx))

lemma insert_allNone (l : LSH) (id : Nat) (sig : List (Option Nat))
    (hall : ∀ x ∈ sig, x = none) (hlen : sig.length = l.b * l.r)
    (hr : 0 < l.r) : l.insert id sig = l := by
  unfold LSH.insert
  rw [insertFold_allNone id sig l.r (List.range l.b) l.buckets]
  intro j hj
  have hjb : j < l.b := List.mem_range.mp hj
  have h1 : j * l.r + l.r ≤ l.b * l.r := by
    have h2 : (j + 1) * l.r ≤ l.b * l.r :=
      Nat.mul_le_mul_right l.r (Nat.succ_le_of_lt hjb)
    calc j * l.r + l.r = (j + 1) * l.r := by ring
      _ ≤ l.b * l.r := h2
  have hjr : j * l.r < sig.length := by rw [hlen]; omega
  exact bandKeyOf_allNone sig l.r j hall hjr hr

lemma divisorPairs_mem (np : Nat) (p : Nat × Nat) (hp : p ∈ divisorPairs np) :
    p.1 * p.2 = np ∧ 0 < p.2 := by
  unfold divisorPairs at hp
  rcases List.mem_filterMap.mp hp with ⟨i, hi, hif⟩
  by_cases hmod : np % (i + 1) = 0
  · rw [if_pos hmod] at hif
    injection hif with hif
    rw [← hif]
    constructor
    · exact Nat.mul_div_cancel' (Nat.dvd_of_mod_eq_zero hmod)
    · exact Nat.div_pos (Nat.succ_le_of_lt (List.mem_range.mp hi)) (Nat.succ_pos i)
  · rw [if_neg hmod] at hif
    cases hif

lemma bandParams_spec (np : Nat) (t : Frac) :
    (bandParams np t).1 * (bandParams np t).2 = np ∧ 0 < (bandParams np t).2 := by
  unfold bandParams
  have haux : ∀ (l : List (Nat × Nat)) (init : Nat × Nat),
      init.1 * init.2 = np ∧ 0 < init.2 →
      (∀ p ∈ l, p.1 * p.2 = np ∧ 0 < p.2) →
      (l.foldl (fun best p => if distLt p best t then p else best) init).1 *
          (l.foldl (fun best p => if distLt p best t then p else best) init).2 = np ∧
        0 < (l.foldl (fun best p => if distLt p best t then p else best) init).2 := by
    intro l
    induction l with
    | nil => intro init h _; exact h
    | cons p rest ih =>
      intro init hinit hall
      simp only [List.foldl_cons]
      apply ih
      · by_cases hd : distLt p init t
        · rw [if_pos hd]; exact hall p (List.mem_cons_self _ _)
        · rw [if_neg hd]; exact hinit
      · exact fun q hq => hall q (List.mem_cons_of_mem _ hq)
  apply haux
  · cases np with
    | zero => exact ⟨by simp, Nat.one_pos⟩
    | succ m => exact ⟨by simp, Nat.one_pos⟩
  · exact divisorPairs_mem np

lemma step_bucket_mono (h : Nat → String → Nat) (np : Nat) (st : DedupState)
    (idx : Nat) (d : Doc) (k : Nat × List Nat) (v : Nat)
    (hv : findBucket st.lsh.buckets k = some v) :
    findBucket (step h np st idx d).lsh.buckets k = some v := by
  by_cases hd : d.sha256 ∈ st.sha256_seen
  · rw [step_of_dup h np st idx d hd]; exact hv
  · cases hq : st.lsh.query (create_minhash h np (textOf d)) with
    | none =>
      rw [step_of_fresh_nomatch h np st idx d hd hq]
      exact findBucket_insert_mono st.lsh idx _ k v hv
    | some g =>
      rw [step_of_fresh_match h np st idx d g hd hq]
      exact hv

lemma processFrom_bucket_mono (h : Nat → String → Nat) (np : Nat)
    (k : Nat × List Nat) (v : Nat) :
    ∀ (ds : List Doc) (st : DedupState) (n : Nat),
      findBucket st.lsh.buckets k = some v →
      findBucket (processFrom h np st n ds).lsh.buckets k = some v
  | [], st, n, hv => hv
  | d :: ds, st, n, hv => by
    rw [processFrom_cons]
    exact processFrom_bucket_mono h np k v ds _ _
      (step_bucket_mono h np st n d k v hv)

lemma step_sha_mem (h : Nat → String → Nat) (np : Nat) (st : DedupState)
    (idx : Nat) (d : Doc) (s : String) :
    s ∈ (step h np st idx d).sha256_seen ↔
      s ∈ st.sha256_seen ∨ s = d.sha256 := by
  rw [step_sha_seen]
  by_cases hd : d.sha256 ∈ st.sha256_seen
  · rw [if_pos hd]
    constructor
    · exact Or.inl
    · rintro (hs | hs)
      · exact hs
      · rw [hs]; exact hd
  · rw [if_neg hd]
    simp

lemma processFrom_sha_mem (h : Nat → String → Nat) (np : Nat) (s : String) :
    ∀ (ds : List Doc) (st : DedupState) (n : Nat),
      s ∈ (processFrom h np st n ds).sha256_seen ↔
        s ∈ st.sha256_seen ∨ s ∈ ds.map Doc.sha256
  | [], st, n => by simp
  | d :: ds, st, n => by
    rw [processFrom_cons]
    rw [processFrom_sha_mem h np s ds _ _]
    rw [step_sha_mem]
    simp only [List.map_cons, List.mem_cons]
    tauto

lemma step_mh_mono (h : Nat → String → Nat) (np : Nat) (st : DedupState)
    (idx : Nat) (d : Doc) (i : Nat) (hi : i ∈ st.minhashes) :
    i ∈ (step h np st idx d).minhashes := by
  rw [step_minhashes]
  by_cases hd : d.sha256 ∈ st.sha256_seen
  · rw [if_pos hd]; exact hi
  · rw [if_neg hd]; exact List.mem_append.mpr (Or.inl hi)

lemma processFrom_mh_mono (h : Nat → String → Nat) (np : Nat) (i : Nat) :
    ∀ (ds : List Doc) (st : DedupState) (n : Nat),
      i ∈ st.minhashes → i ∈ (processFrom h np st n ds).minhashes
  | [], st, n, hi => hi
  | d :: ds, st, n, hi => by
    rw [processFrom_cons]
    exact processFrom_mh_mono h np i ds _ _ (step_mh_mono h np st n d i hi)

lemma step_mh_stable (h : Nat → String → Nat) (np : Nat) (st : DedupState)
    (idx : Nat) (d : Doc) (j : Nat) (hj : j ≠ idx) :
    j ∈ (step h np st idx d).minhashes ↔ j ∈ st.minhashes := by
  rw [step_minhashes]
  by_cases hd : d.sha256 ∈ st.sha256_seen
  · rw [if_pos hd]
  · rw [if_neg hd]
    simp [hj]

lemma processFrom_mh_stable (h : Nat → String → Nat) (np : Nat) (j : Nat) :
    ∀ (ds : List Doc) (st : DedupState) (n : Nat), j < n →
      (j ∈ (processFrom h np st n ds).minhashes ↔ j ∈ st.minhashes)
  | [], st, n, _ => Iff.rfl
  | d :: ds, st, n, hj => by
    rw [processFrom_cons]
    rw [processFrom_mh_stable h np j ds _ _ (by omega)]
    exact step_mh_stable h np st n d j (by omega)

lemma step_keys_mono (h : Nat → String → Nat) (np : Nat) (st : DedupState)
    (idx : Nat) (d : Doc) (k : Nat)
    (hk : k ∈ st.near_dupe_groups.map Prod.fst) :
    k ∈ (step h np st idx d).near_dupe_groups.map Prod.fst := by
  by_cases hd : d.sha256 ∈ st.sha256_seen
  · rw [step_of_dup h np st idx d hd]; exact hk
  · cases hq : st.lsh.query (create_minhash h np (textOf d)) with
    | none =>
      rw [step_of_fresh_nomatch h np st idx d hd hq]
      exact addToGroups_keys_sub idx idx k st.near_dupe_groups hk
    | some g =>
      rw [step_of_fresh_match h np st idx d g hd hq]
      exact addToGroups_keys_sub g idx k st.near_dupe_groups hk

lemma processFrom_keys_mono (h : Nat → String → Nat) (np : Nat) (k : Nat) :
    ∀ (ds : List Doc) (st : DedupState) (n : Nat),
      k ∈ st.near_dupe_groups.map Prod.fst →
      k ∈ (processFrom h np st n ds).near_dupe_groups.map Prod.fst
  | [], st, n, hk => hk
  | d :: ds, st, n, hk => by
    rw [processFrom_cons]
    exact processFrom_keys_mono h np k ds _ _ (step_keys_mono h np st n d k hk)

lemma step_count (h : Nat → String → Nat) (np : Nat) (st : DedupState)
    (idx : Nat) (d : Doc) :
    (step h np st idx d).exact_dupes + (step h np st idx d).minhashes.length =
      st.exact_dupes + st.minhashes.length + 1 := by
  rw [step_exact_dupes, step_minhashes]
  by_cases hd : d.sha256 ∈ st.sha256_seen
  · rw [if_pos hd, if_pos hd]; omega
  · rw [if_neg hd, if_neg hd]
    rw [List.length_append]
    simp
    omega

lemma processFrom_count (h : Nat → String → Nat) (np : Nat) :
    ∀ (ds : List Doc) (st : DedupState) (n : Nat),
      (processFrom h np st n ds).exact_dupes +
          (processFrom h np st n ds).minhashes.length =
        st.exact_dupes + st.minhashes.length + ds.length
  | [], st, n => by simp
  | d :: ds, st, n => by
    rw [processFrom_cons]
    rw [processFrom_count h np ds _ _]
    rw [step_count]
    simp
    omega

lemma inv_step (h : Nat → String → Nat) (np : Nat) (st : DedupState)
    (n : Nat) (d : Doc) (hInv : DedupInv n st) :
    DedupInv (n + 1) (step h np st n d) := by
  by_cases hd : d.sha256 ∈ st.sha256_seen
  · rw [step_of_dup h np st n d hd]
    exact
      { headKey := hInv.headKey
        idsLt := fun i hi => Nat.lt_succ_of_lt (hInv.idsLt i hi)
        mhLt := fun i hi => Nat.lt_succ_of_lt (hInv.mhLt i hi)
        nodupM := hInv.nodupM
        bucketVals := hInv.bucketVals
        memMh := hInv.memMh }
  · cases hq : st.lsh.query (create_minhash h np (textOf d)) with
    | some g =>
      rw [step_of_fresh_match h np st n d g hd hq]
      obtain ⟨bk, hbk⟩ := query_eq_some_bucket st.lsh _ g hq
      have hgkey : g ∈ st.near_dupe_groups.map Prod.fst := hInv.bucketVals bk g hbk
      obtain ⟨pg, hpg, hpgk⟩ := List.mem_map.mp hgkey
      have hgAll : g ∈ allMembers st.near_dupe_groups := by
        rw [← hpgk]
        exact key_mem_allMembers _ pg hpg (hInv.headKey pg hpg)
      have hgn : g < n := hInv.idsLt g hgAll
      have hperm := addToGroups_allMembers_perm g n st.near_dupe_groups
      refine
        { headKey := ?_, idsLt := ?_, mhLt := ?_, nodupM := ?_,
          bucketVals := ?_, memMh := ?_ }
      · intro p hp
        rcases addToGroups_mem_cases g n p st.near_dupe_groups hp with hc | hc | hc
        · exact hInv.headKey p hc
        · obtain ⟨ms, hms, hpe⟩ := hc
          obtain ⟨tl, htl, hlt⟩ := hInv.headKey (g, ms) hms
          rw [hpe]
          refine ⟨tl ++ [n], ?_, ?_⟩
          · show ms ++ [n] = g :: (tl ++ [n])
            rw [show (g, ms).2 = ms from rfl] at htl
            rw [show (g, ms).1 = g from rfl] at htl
            rw [htl]
            rfl
          · intro m hm
            rcases List.mem_append.mp hm with hm | hm
            · exact hlt m hm
            · rw [List.mem_singleton] at hm
              rw [hm]
              exact hgn
        · exact absurd hgkey hc.1
      · intro i hi
        rcases List.mem_append.mp (hperm.mem_iff.mp hi) with hi2 | hi2
        · exact Nat.lt_succ_of_lt (hInv.idsLt i hi2)
        · rw [List.mem_singleton] at hi2
          rw [hi2]
          exact Nat.lt_succ_self n
      · intro i hi
        rcases List.mem_append.mp hi with hi2 | hi2
        · exact Nat.lt_succ_of_lt (hInv.mhLt i hi2)
        · rw [List.mem_singleton] at hi2
          rw [hi2]
          exact Nat.lt_succ_self n
      · apply (List.Perm.nodup_iff hperm).mpr
        rw [List.nodup_append]
        refine ⟨hInv.nodupM, List.nodup_singleton n, ?_⟩
        intro x hx hx2
        rw [List.mem_singleton] at hx2
        rw [hx2] at hx
        exact Nat.lt_irrefl n (hInv.idsLt n hx)
      · intro k v hkv
        exact addToGroups_keys_sub g n v st.near_dupe_groups (hInv.bucketVals k v hkv)
      · intro i hi
        rcases List.mem_append.mp (hperm.mem_iff.mp hi) with hi2 | hi2
        · exact List.mem_append.mpr (Or.inl (hInv.memMh i hi2))
        · exact List.mem_append.mpr (Or.inr hi2)
    | none =>
      rw [step_of_fresh_nomatch h np st n d hd hq]
      have hperm := addToGroups_allMembers_perm n n st.near_dupe_groups
      refine
        { headKey := ?_, idsLt := ?_, mhLt := ?_, nodupM := ?_,
          bucketVals := ?_, memMh := ?_ }
      · intro p hp
        rcases addToGroups_mem_cases n n p st.near_dupe_groups hp with hc | hc | hc
        · exact hInv.headKey p hc
        · obtain ⟨ms, hms, hpe⟩ := hc
          obtain ⟨tl, htl, -⟩ := hInv.headKey (n, ms) hms
          have hnAll : n ∈ allMembers st.near_dupe_groups := by
            refine mem_allMembers_of_mem (n, ms) n st.near_dupe_groups hms ?_
            show n ∈ ms
            rw [show (n, ms).2 = ms from rfl] at htl
            rw [htl]
            exact List.mem_cons_self _ _
          exact absurd (hInv.idsLt n hnAll) (Nat.lt_irrefl n)
        · rw [hc.2]
          exact ⟨[], rfl, by intro m hm; cases hm⟩
      · intro i hi
        rcases List.mem_append.mp (hperm.mem_iff.mp hi) with hi2 | hi2
        · exact Nat.lt_succ_of_lt (hInv.idsLt i hi2)
        · rw [List.mem_singleton] at hi2
          rw [hi2]
          exact Nat.lt_succ_self n
      · intro i hi
        rcases List.mem_append.mp hi with hi2 | hi2
        · exact Nat.lt_succ_of_lt (hInv.mhLt i hi2)
        · rw [List.mem_singleton] at hi2
          rw [hi2]
          exact Nat.lt_succ_self n
      · apply (List.Perm.nodup_iff hperm).mpr
        rw [List.nodup_append]
        refine ⟨hInv.nodupM, List.nodup_singleton n, ?_⟩
        intro x hx hx2
        rw [List.mem_singleton] at hx2
        rw [hx2] at hx
        exact Nat.lt_irrefl n (hInv.idsLt n hx)
      · intro k v hkv
        rcases findBucket_insert_cases st.lsh n _ k v hkv with hc | hc
        · exact addToGroups_keys_sub n n v st.near_dupe_groups (hInv.bucketVals k v hc)
        · rw [hc]
          exact addToGroups_self_key n n st.near_dupe_groups
      · intro i hi
        rcases List.mem_append.mp (hperm.mem_iff.mp hi) with hi2 | hi2
        · exact List.mem_append.mpr (Or.inl (hInv.memMh i hi2))
        · exact List.mem_append.mpr (Or.inr hi2)

lemma inv_processFrom (h : Nat → String → Nat) (np : Nat) :
    ∀ (ds : List Doc) (st : DedupState) (n : Nat), DedupInv n st →
      DedupInv (n + ds.length) (processFrom h np st n ds)
  | [], st, n, hInv => by simpa using hInv
  | d :: ds, st, n, hInv => by
    rw [processFrom_cons]
    have hrec := inv_processFrom h np ds (step h np st n d) (n + 1)
      (inv_step h np st n d hInv)
    have heq : n + 1 + ds.length = n + (d :: ds).length := by
      simp only [List.length_cons]
      omega
    rw [heq] at hrec
    exact hrec

lemma inv_initState (b r : Nat) : DedupInv 0 (initState b r) := by
  refine
    { headKey := ?_, idsLt := ?_, mhLt := ?_, nodupM := ?_,
      bucketVals := ?_, memMh := ?_ }
  · intro p hp; cases hp
  · intro i hi; cases hi
  · intro i hi; cases hi
  · exact List.nodup_nil
  · intro k v hkv; cases hkv
  · intro i hi; cases hi

lemma inv_runState (h : Nat → String → Nat) (np : Nat) (t : Frac)
    (docs : List Doc) : DedupInv docs.length (runState h np t docs) := by
  unfold runState
  have hrec := inv_processFrom h np docs
    (initState (bandParams np t).1 (bandParams np t).2) 0
    (inv_initState (bandParams np t).1 (bandParams np t).2)
  simpa using hrec

lemma unique_eq_keys (st : DedupState) (n : Nat) (hInv : DedupInv n st) :
    unique_indices st = st.near_dupe_groups.map Prod.fst := by
  unfold unique_indices
  apply List.map_congr_left
  intro p hp
  obtain ⟨tl, htl, hlt⟩ := hInv.headKey p hp
  show listMin p.2 = p.1
  rw [htl]
  exact listMin_of_head_lt p.1 tl hlt

lemma key_mem_unique (st : DedupState) (n : Nat) (hInv : DedupInv n st)
    (k : Nat) (hk : k ∈ st.near_dupe_groups.map Prod.fst) :
    k ∈ unique_indices st := by
  rw [unique_eq_keys st n hInv]
  exact hk

lemma unique_sub_mh (st : DedupState) (n : Nat) (hInv : DedupInv n st)
    (i : Nat) (hi : i ∈ unique_indices st) : i ∈ st.minhashes := by
  rw [unique_eq_keys st n hInv] at hi
  obtain ⟨p, hp, hpk⟩ := List.mem_map.mp hi
  have hiAll : i ∈ allMembers st.near_dupe_groups := by
    rw [← hpk]
    exact key_mem_allMembers _ p hp (hInv.headKey p hp)
  exact hInv.memMh i hiAll

lemma run_split (h : Nat → String → Nat) (np : Nat) (t : Frac)
    (pre rest : List Doc) :
    runState h np t (pre ++ rest) =
      processFrom h np (runState h np t pre) pre.length rest := by
  unfold runState
  rw [processFrom_append]
  simp

lemma processFrom_lsh_b (h : Nat → String → Nat) (np : Nat) :
    ∀ (ds : List Doc) (st : DedupState) (n : Nat),
      (processFrom h np st n ds).lsh.b = st.lsh.b
  | [], st, n => rfl
  | d :: ds, st, n => by
    rw [processFrom_cons, processFrom_lsh_b h np ds _ _, step_lsh_b]

lemma processFrom_lsh_r (h : Nat → String → Nat) (np : Nat) :
    ∀ (ds : List Doc) (st : DedupState) (n : Nat),
      (processFrom h np st n ds).lsh.r = st.lsh.r
  | [], st, n => rfl
  | d :: ds, st, n => by
    rw [processFrom_cons, processFrom_lsh_r h np ds _ _, step_lsh_r]

lemma runState_lsh_b (h : Nat → String → Nat) (np : Nat) (t : Frac)
    (docs : List Doc) : (runState h np t docs).lsh.b = (bandParams np t).1 := by
  unfold runState
  rw [processFrom_lsh_b]
  rfl

lemma runState_lsh_r (h : Nat → String → Nat) (np : Nat) (t : Frac)
    (docs : List Doc) : (runState h np t docs).lsh.r = (bandParams np t).2 := by
  unfold runState
  rw [processFrom_lsh_r]
  rfl

lemma step_extends (h : Nat → String → Nat) (np : Nat) (st : DedupState)
    (idx : Nat) (d : Doc) (p : Nat × List Nat)
    (hp : p ∈ st.near_dupe_groups) :
    ∃ q, q ∈ (step h np st idx d).near_dupe_groups ∧ q.1 = p.1 ∧
      ∃ ext, q.2 = p.2 ++ ext := by
  by_cases hd : d.sha256 ∈ st.sha256_seen
  · rw [step_of_dup h np st idx d hd]
    exact ⟨p, hp, rfl, ⟨[], by simp⟩⟩
  · cases hq : st.lsh.query (create_minhash h np (textOf d)) with
    | none =>
      rw [step_of_fresh_nomatch h np st idx d hd hq]
      exact addToGroups_extends idx idx p st.near_dupe_groups hp
    | some g =>
      rw [step_of_fresh_match h np st idx d g hd hq]
      exact addToGroups_extends g idx p st.near_dupe_groups hp

lemma processFrom_extends (h : Nat → String → Nat) (np : Nat) :
    ∀ (ds : List Doc) (st : DedupState) (n : Nat) (p : Nat × List Nat),
      p ∈ st.near_dupe_groups →
      ∃ q, q ∈ (processFrom h np st n ds).near_dupe_groups ∧ q.1 = p.1 ∧
        ∃ ext, q.2 = p.2 ++ ext
  | [], st, n, p, hp => ⟨p, hp, rfl, ⟨[], by simp⟩⟩
  | d :: ds, st, n, p, hp => by
    rw [processFrom_cons]
    obtain ⟨q1, hq1, hq1k, ⟨e1, he1⟩⟩ := step_extends h np st n d p hp
    obtain ⟨q2, hq2, hq2k, ⟨e2, he2⟩⟩ :=
      processFrom_extends h np ds (step h np st n d) (n + 1) q1 hq1
    exact ⟨q2, hq2, by rw [hq2k, hq1k], ⟨e1 ++ e2,
      by rw [he2, he1, List.append_assoc]⟩⟩

lemma runDedup_ok (h : Nat → String → Nat) (np : Nat) (t : Frac)
    (docs : List Doc) (hval : validThreshold t) :
    runDedup h np t docs =
      Except.ok
        { retained := unique_indices (runState h np t docs)
          stats := statsOf (runState h np t docs) } := by
  unfold runDedup
  rw [if_pos hval]

lemma runState_sha_mem (h : Nat → String → Nat) (np : Nat) (t : Frac)
    (docs : List Doc) (s : String) :
    s ∈ (runState h np t docs).sha256_seen ↔ s ∈ docs.map Doc.sha256 := by
  unfold runState
  rw [processFrom_sha_mem]
  simp [initState]

lemma later_dup_not_in_mh (h : Nat → String → Nat) (np : Nat) (t : Frac)
    (pre mid post : List Doc) (d e : Doc) (hsha : d.sha256 = e.sha256) :
    (pre.length + mid.length + 1) ∉
      (runState h np t (pre ++ d :: mid ++ e :: post)).minhashes := by
  have hassoc : pre ++ d :: mid ++ e :: post = (pre ++ d :: mid) ++ e :: post := by
    simp
  have hj : pre.length + mid.length + 1 = (pre ++ d :: mid).length := by
    simp
    omega
  rw [hassoc, hj, run_split, processFrom_cons]
  have hInvA := inv_runState h np t (pre ++ d :: mid)
  have hdup : e.sha256 ∈ (runState h np t (pre ++ d :: mid)).sha256_seen := by
    rw [runState_sha_mem]
    rw [← hsha]
    exact List.mem_map.mpr ⟨d, List.mem_append.mpr (Or.inr (List.mem_cons_self _ _)), rfl⟩
  rw [step_of_dup h np _ (pre ++ d :: mid).length e hdup]
  rw [processFrom_mh_stable h np _ post _ ((pre ++ d :: mid).length + 1) (by omega)]
  intro hmem
  exact absurd (hInvA.mhLt _ hmem) (Nat.lt_irrefl _)

lemma fresh_doc_in_mh (h : Nat → String → Nat) (np : Nat) (t : Frac)
    (pre post : List Doc) (d : Doc) (hfresh : d.sha256 ∉ pre.map Doc.sha256) :
    pre.length ∈ (runState h np t (pre ++ d :: post)).minhashes := by
  rw [run_split, processFrom_cons]
  apply processFrom_mh_mono
  have hnotseen : d.sha256 ∉ (runState h np t pre).sha256_seen := by
    rw [runState_sha_mem]
    exact hfresh
  rw [step_minhashes, if_neg hnotseen]
  exact List.mem_append.mpr (Or.inr (List.mem_singleton.mpr rfl))

lemma fresh_short_key (h : Nat → String → Nat) (np : Nat) (t : Frac)
    (pre post : List Doc) (d : Doc)
    (hshort : (tokens (textOf d)).length < 3)
    (hfresh : d.sha256 ∉ pre.map Doc.sha256) :
    pre.length ∈
      (runState h np t (pre ++ d :: post)).near_dupe_groups.map Prod.fst := by
  rw [run_split, processFrom_cons]
  apply processFrom_keys_mono
  have hnotseen : d.sha256 ∉ (runState h np t pre).sha256_seen := by
    rw [runState_sha_mem]
    exact hfresh
  have hsig_none : ∀ x ∈ create_minhash h np (textOf d), x = none := by
    unfold create_minhash
    rw [shingles_nil_of_short _ hshort]
    exact mem_signature_nil h np
  have hsiglen : (create_minhash h np (textOf d)).length =
      (runState h np t pre).lsh.b * (runState h np t pre).lsh.r := by
    rw [runState_lsh_b, runState_lsh_r]
    unfold create_minhash
    rw [signature_length]
    exact (bandParams_spec np t).1.symm
  have hr : 0 < (runState h np t pre).lsh.r := by
    rw [runState_lsh_r]
    exact (bandParams_spec np t).2
  have hq : (runState h np t pre).lsh.query (create_minhash h np (textOf d)) =
      none := query_allNone _ _ hsig_none hsiglen hr
  rw [step_of_fresh_nomatch h np _ pre.length d hnotseen hq]
  exact addToGroups_self_key pre.length pre.length _

lemma in_own_group_only (h : Nat → String → Nat) (np : Nat) (t : Frac)
    (docs : List Doc) (j : Nat)
    (hkey : j ∈ (runState h np t docs).near_dupe_groups.map Prod.fst) :
    ∀ p ∈ (runState h np t docs).near_dupe_groups, j ∈ p.2 → p.1 = j := by
  have hInv := inv_runState h np t docs
  obtain ⟨q, hq, hqk⟩ := List.mem_map.mp hkey
  obtain ⟨tl, htl, -⟩ := hInv.headKey q hq
  have hjq : j ∈ q.2 := by
    rw [htl, ← hqk]
    exact List.mem_cons_self _ _
  intro p hp hjp
  have hpq := group_eq_of_shared_member j p q _ hInv.nodupM hp hq hjp hjq
  rw [hpq]
  exact hqk

lemma first_doc_key (h : Nat → String → Nat) (np : Nat) (t : Frac)
    (d : Doc) (rest : List Doc) :
    0 ∈ (runState h np t (d :: rest)).near_dupe_groups.map Prod.fst := by
  unfold runState
  rw [processFrom_cons]
  apply processFrom_keys_mono
  have hnotseen :
      d.sha256 ∉ (initState (bandParams np t).1 (bandParams np t).2).sha256_seen := by
    intro hx
    cases hx
  have hq :
      (initState (bandParams np t).1 (bandParams np t).2).lsh.query
        (create_minhash h np (textOf d)) = none :=
    query_empty_buckets (bandParams np t).1 (bandParams np t).2 _
  rw [step_of_fresh_nomatch h np _ 0 d hnotseen hq]
  exact addToGroups_self_key 0 0 _

/-- C1 counterexample: a document with fewer than three tokens is NOT
always retained — when its `sha256` equals an earlier document's, it is
dropped by the exact stage before the near-duplicate logic runs.  Here
both documents have text `"hi"` (one token) and equal hashes; the run
retains only index `0`, so the short document at index `1` is not in the
final output, contradicting the claim as stated. -/
theorem C1_short_doc_counterexample :
    (tokens "hi").length < 3 ∧
    1 ∉ unique_indices (runState hZero 8 { num := 1, den := 2 }
      [{ sha256 := "x", text_clean := none, text := "hi" },
       { sha256 := "x", text_clean := none, text := "hi" }]) ∧
    retainedOfRun (runDedup hZero 8 { num := 1, den := 2 }
      [{ sha256 := "x", text_clean := none, text := "hi" },
       { sha256 := "x", text_clean := none, text := "hi" }]) =
      some (unique_indices (runState hZero 8 { num := 1, den := 2 }
        [{ sha256 := "x", text_clean := none, text := "hi" },
         { sha256 := "x", text_clean := none, text := "hi" }])) := by
  refine ⟨by decide, by decide, by decide⟩

/-- C1 (amended): every input document with fewer than `k = 3` tokens
whose `sha256` does not repeat an earlier document's hash is always
retained, and is never placed in another document's cluster (its shingle
set is empty, hence its sentinel signature touches no LSH bucket and
yields no collision in the query). -/
theorem C1_short_doc_retained (h : Nat → String → Nat) (np : Nat) (t : Frac)
    (pre post : List Doc) (d : Doc)
    (hshort : (tokens (textOf d)).length < 3)
    (hfresh : d.sha256 ∉ pre.map Doc.sha256) :
    pre.length ∈ unique_indices (runState h np t (pre ++ d :: post)) ∧
    ∀ p ∈ (runState h np t (pre ++ d :: post)).near_dupe_groups,
      pre.length ∈ p.2 → p.1 = pre.length := by
  have hkey := fresh_short_key h np t pre post d hshort hfresh
  exact ⟨key_mem_unique _ _ (inv_runState h np t _) _ hkey,
    in_own_group_only h np t _ _ hkey⟩

/-- Witness for C1 (amended): a one-token document with a fresh hash,
following an unrelated document, is retained at its index. -/
theorem C1_short_doc_retained_witness :
    1 ∈ unique_indices (runState hZero 8 { num := 1, den := 2 }
      [{ sha256 := "a", text_clean := none, text := "p q r" },
       { sha256 := "b", text_clean := none, text := "hi" }]) :=
  (C1_short_doc_retained hZero 8 { num := 1, den := 2 }
    [{ sha256 := "a", text_clean := none, text := "p q r" }] []
    { sha256 := "b", text_clean := none, text := "hi" }
    (by decide) (by decide)).1

/-- C2 counterexample: with two documents of identical `sha256` it is NOT
always the case that exactly one of them is retained — here document 1
(hash `"B"`) is removed as a near-duplicate of document 0, and document 2
(also hash `"B"`) is removed by the exact stage, so NEITHER of the two
identically-hashed documents appears in the retained ids. -/
theorem C2_exact_dup_counterexample :
    (Doc.sha256 { sha256 := "B", text_clean := none, text := "a b c" } =
      Doc.sha256 { sha256 := "B", text_clean := none, text := "z z z" }) ∧
    1 ∉ unique_indices (runState hZero 8 { num := 1, den := 2 }
      [{ sha256 := "A", text_clean := none, text := "a b c" },
       { sha256 := "B", text_clean := none, text := "a b c" },
       { sha256 := "B", text_clean := none, text := "z z z" }]) ∧
    2 ∉ unique_indices (runState hZero 8 { num := 1, den := 2 }
      [{ sha256 := "A", text_clean := none, text := "a b c" },
       { sha256 := "B", text_clean := none, text := "a b c" },
       { sha256 := "B", text_clean := none, text := "z z z" }]) ∧
    retainedOfRun (runDedup hZero 8 { num := 1, den := 2 }
      [{ sha256 := "A", text_clean := none, text := "a b c" },
       { sha256 := "B", text_clean := none, text := "a b c" },
       { sha256 := "B", text_clean := none, text := "z z z" }]) =
      some (unique_indices (runState hZero 8 { num := 1, den := 2 }
        [{ sha256 := "A", text_clean := none, text := "a b c" },
         { sha256 := "B", text_clean := none, text := "a b c" },
         { sha256 := "B", text_clean := none, text := "z z z" }])) := by
  refine ⟨rfl, by decide, by decide, by decide⟩

/-- C2 (amended): for two documents with identical `sha256`, the
later-arrival one is never in the retained ids (its hash is already in
`sha256_seen` when it is processed, so it is dropped by the exact stage);
hence at most one of the two is retained and it can only be the
earlier-arrival one. -/
theorem C2_later_dup_never_retained (h : Nat → String → Nat) (np : Nat)
    (t : Frac) (pre mid post : List Doc) (d e : Doc)
    (hsha : d.sha256 = e.sha256) :
    (pre.length + mid.length + 1) ∉
      unique_indices (runState h np t (pre ++ d :: mid ++ e :: post)) := by
  intro hmem
  have hInv := inv_runState h np t (pre ++ d :: mid ++ e :: post)
  have hmh := unique_sub_mh _ _ hInv _ hmem
  exact later_dup_not_in_mh h np t pre mid post d e hsha hmh

/-- Witness for C2 (amended): with two identically-hashed documents the
later one (index 1) is not retained. -/
theorem C2_later_dup_never_retained_witness :
    1 ∉ unique_indices (runState hZero 8 { num := 1, den := 2 }
      ([] ++ { sha256 := "A", text_clean := none, text := "a" } ::
        [] ++ { sha256 := "A", text_clean := none, text := "b" } :: [])) :=
  C2_later_dup_never_retained hZero 8 { num := 1, den := 2 } [] [] []
    { sha256 := "A", text_clean := none, text := "a" }
    { sha256 := "A", text_clean := none, text := "b" } rfl

/-- C3: for every run with a valid threshold, the emitted statistics
satisfy the conservation law
`total_input = exact_duplicates + near_duplicates + retained`, and
`near_duplicates` equals the number of exact-stage survivors (the
`minhashes` entries) minus the number of retained ids. -/
theorem C3_conservation (h : Nat → String → Nat) (np : Nat) (t : Frac)
    (docs : List Doc) (hval : validThreshold t) :
    runDedup h np t docs =
      Except.ok
        { retained := unique_indices (runState h np t docs)
          stats := statsOf (runState h np t docs) } ∧
    (docs.length : Int) =
      ((statsOf (runState h np t docs)).exact_duplicates : Int) +
        (statsOf (runState h np t docs)).near_duplicates +
        ((statsOf (runState h np t docs)).unique_items : Int) ∧
    (statsOf (runState h np t docs)).near_duplicates =
      ((runState h np t docs).minhashes.length : Int) -
        ((unique_indices (runState h np t docs)).length : Int) := by
  refine ⟨runDedup_ok h np t docs hval, ?_, rfl⟩
  have hcount : (runState h np t docs).exact_dupes +
      (runState h np t docs).minhashes.length = docs.length := by
    unfold runState
    rw [processFrom_count]
    simp [initState]
  simp only [statsOf]
  omega

/-- Witness for C3: the conservation law evaluated on a concrete
three-document run. -/
theorem C3_conservation_witness :
    (([{ sha256 := "A", text_clean := none, text := "a b c" },
       { sha256 := "B", text_clean := none, text := "a b c" },
       { sha256 := "B", text_clean := none, text := "z z z" }] :
        List Doc).length : Int) =
      ((statsOf (runState hZero 8 { num := 1, den := 2 }
        [{ sha256 := "A", text_clean := none, text := "a b c" },
         { sha256 := "B", text_clean := none, text := "a b c" },
         { sha256 := "B", text_clean := none, text := "z z z" }])).exact_duplicates : Int) +
        (statsOf (runState hZero 8 { num := 1, den := 2 }
          [{ sha256 := "A", text_clean := none, text := "a b c" },
           { sha256 := "B", text_clean := none, text := "a b c" },
           { sha256 := "B", text_clean := none, text := "z z z" }])).near_duplicates +
        ((statsOf (runState hZero 8 { num := 1, den := 2 }
          [{ sha256 := "A", text_clean := none, text := "a b c" },
           { sha256 := "B", text_clean := none, text := "a b c" },
           { sha256 := "B", text_clean := none, text := "z z z" }])).unique_items : Int) :=
  (C3_conservation hZero 8 { num := 1, den := 2 }
    [{ sha256 := "A", text_clean := none, text := "a b c" },
     { sha256 := "B", text_clean := none, text := "a b c" },
     { sha256 := "B", text_clean := none, text := "z z z" }] (by decide)).2.1

/-- C4: in every final cluster map the representative of a cluster is its
first-inserted member (the head of the member list), which is also the
minimum id; the retained list is exactly the list of cluster
representatives; every later member of a cluster is absent from the
retained ids; and under any continuation of the run each cluster keeps its
representative, only ever appending members. -/
theorem C4_representatives (h : Nat → String → Nat) (np : Nat) (t : Frac)
    (docs : List Doc) :
    unique_indices (runState h np t docs) =
      (runState h np t docs).near_dupe_groups.map Prod.fst ∧
    (∀ p ∈ (runState h np t docs).near_dupe_groups,
      p.2.head? = some p.1 ∧ listMin p.2 = p.1 ∧
      ∀ m ∈ p.2, m ≠ p.1 → m ∉ unique_indices (runState h np t docs)) ∧
    (∀ (ds : List Doc) (p : Nat × List Nat),
      p ∈ (runState h np t docs).near_dupe_groups →
      ∃ q, q ∈ (processFrom h np (runState h np t docs)
          docs.length ds).near_dupe_groups ∧
        q.1 = p.1 ∧ ∃ ext, q.2 = p.2 ++ ext) := by
  have hInv := inv_runState h np t docs
  refine ⟨unique_eq_keys _ _ hInv, ?_, ?_⟩
  · intro p hp
    obtain ⟨tl, htl, hlt⟩ := hInv.headKey p hp
    refine ⟨by rw [htl]; rfl, by rw [htl]; exact listMin_of_head_lt p.1 tl hlt, ?_⟩
    intro m hm hmne hmem
    rw [unique_eq_keys _ _ hInv] at hmem
    obtain ⟨q, hq, hqk⟩ := List.mem_map.mp hmem
    obtain ⟨tlq, htlq, -⟩ := hInv.headKey q hq
    have hmq : m ∈ q.2 := by
      rw [htlq, ← hqk]
      exact List.mem_cons_self _ _
    have hpq := group_eq_of_shared_member m p q _ hInv.nodupM hp hq hm hmq
    rw [hpq] at hmne
    exact hmne hqk.symm
  · intro ds p hp
    exact processFrom_extends h np ds _ docs.length p hp

/-- Witness for C4: on a two-document run whose second document joins the
first document's cluster, the cluster `(0, [0, 1])` has head `0`, minimum
`0`, and the later member `1` is not retained. -/
theorem C4_representatives_witness :
    ((0, [0, 1]) : Nat × List Nat).2.head? = some 0 ∧
    listMin ((0, [0, 1]) : Nat × List Nat).2 = 0 ∧
    1 ∉ unique_indices (runState hZero 8 { num := 1, den := 2 }
      [{ sha256 := "A", text_clean := none, text := "a b c" },
       { sha256 := "B", text_clean := none, text := "a b c" }]) := by
  have happ := (C4_representatives hZero 8 { num := 1, den := 2 }
    [{ sha256 := "A", text_clean := none, text := "a b c" },
     { sha256 := "B", text_clean := none, text := "a b c" }]).2.1
    (0, [0, 1]) (by decide)
  exact ⟨happ.1, happ.2.1, happ.2.2 1 (by decide) (by decide)⟩

/-- C5: determinism — running the whole pipeline twice on the same input
sequence with the same configuration (hash seed table, `num_perm`,
threshold) yields identical retained ids and statistics; likewise the
signature builder is a deterministic function of the text and the seed
table.  The embedding is a pure function of its arguments, so the two-run
equality is definitional. -/
theorem C5_determinism (h1 h2 : Nat → String → Nat) (np1 np2 : Nat)
    (t1 t2 : Frac) (docs1 docs2 : List Doc)
    (hh : h1 = h2) (hnp : np1 = np2) (ht : t1 = t2) (hd : docs1 = docs2) :
    runDedup h1 np1 t1 docs1 = runDedup h2 np2 t2 docs2 ∧
    create_minhash h1 np1 = create_minhash h2 np2 := by
  rw [hh, hnp, ht, hd]
  exact ⟨rfl, rfl⟩

/-- Witness for C5: two runs on the same concrete input coincide. -/
theorem C5_determinism_witness :
    runDedup cexHash 8 { num := 2, den := 5 } cexDocs =
      runDedup cexHash 8 { num := 2, den := 5 } cexDocs :=
  (C5_determinism cexHash cexHash 8 8 { num := 2, den := 5 }
    { num := 2, den := 5 } cexDocs cexDocs rfl rfl rfl rfl).1

/-- C6: bucket exclusivity — throughout any run, once a `(band, key)`
bucket holds an exemplar id it holds that id forever (no occupant is
displaced or overwritten); and a document whose query matches an occupied
bucket leaves the index untouched and is recorded as a member of the
matched exemplar's cluster instead. -/
theorem C6_bucket_invariant :
    (∀ (h : Nat → String → Nat) (np : Nat) (ds : List Doc) (st : DedupState)
        (n : Nat) (k : Nat × List Nat) (v : Nat),
      findBucket st.lsh.buckets k = some v →
      findBucket (processFrom h np st n ds).lsh.buckets k = some v) ∧
    (∀ (h : Nat → String → Nat) (np : Nat) (st : DedupState) (idx : Nat)
        (d : Doc) (g : Nat),
      d.sha256 ∉ st.sha256_seen →
      st.lsh.query (create_minhash h np (textOf d)) = some g →
      (step h np st idx d).lsh = st.lsh ∧
      (step h np st idx d).near_dupe_groups =
        addToGroups st.near_dupe_groups g idx) := by
  constructor
  · intro h np ds st n k v hv
    exact processFrom_bucket_mono h np k v ds st n hv
  · intro h np st idx d g hd hq
    rw [step_of_fresh_match h np st idx d g hd hq]
    exact ⟨rfl, rfl⟩

/-- Witness for C6: from a state with bucket `(0, [0]) ↦ 3`, processing a
further document leaves the occupant in place, and a matching document
leaves the index unchanged. -/
theorem C6_bucket_invariant_witness :
    findBucket (processFrom hZero 1 demoState 4
      [{ sha256 := "q", text_clean := none, text := "a b c" }]).lsh.buckets
      (0, [0]) = some 3 ∧
    (step hZero 1 demoState 4
      { sha256 := "q", text_clean := none, text := "a b c" }).lsh =
      demoState.lsh :=
  ⟨C6_bucket_invariant.1 hZero 1
      [{ sha256 := "q", text_clean := none, text := "a b c" }] demoState 4
      (0, [0]) 3 (by decide),
   (C6_bucket_invariant.2 hZero 1 demoState 4
      { sha256 := "q", text_clean := none, text := "a b c" } 3
      (by decide) (by decide)).1⟩

/-- C7 counterexample: raising the threshold can DECREASE the retained
count.  With `num_perm = 8` and the seed table `cexHash`, the four
documents of `cexDocs` yield three retained ids at threshold `2/25`
(banding `b = 8, r = 1`) but only two retained ids at the strictly larger
threshold `2/5` (banding `b = 4, r = 2`): the looser threshold absorbs
document 1 into cluster 0, which prevents documents 2 and 3 from matching
anything, while the stricter threshold leaves document 1 as an exemplar
that then absorbs both 2 and 3. -/
theorem C7_threshold_not_monotone :
    fracLt { num := 2, den := 25 } { num := 2, den := 5 } ∧
    validThreshold { num := 2, den := 25 } ∧
    validThreshold { num := 2, den := 5 } ∧
    (unique_indices (runState cexHash 8 { num := 2, den := 25 } cexDocs)).length = 3 ∧
    (unique_indices (runState cexHash 8 { num := 2, den := 5 } cexDocs)).length = 2 ∧
    retainedOfRun (runDedup cexHash 8 { num := 2, den := 25 } cexDocs) =
      some (unique_indices (runState cexHash 8 { num := 2, den := 25 } cexDocs)) ∧
    retainedOfRun (runDedup cexHash 8 { num := 2, den := 5 } cexDocs) =
      some (unique_indices (runState cexHash 8 { num := 2, den := 5 } cexDocs)) := by
  refine ⟨by decide, by decide, by decide, by decide, by decide, by decide, by decide⟩

/-- C7 (amended): changing the threshold while the derived band
parameters `(b, r)` stay the same leaves the whole run output unchanged —
in particular the retained count cannot decrease; when the banding
changes, monotonicity can fail (see the counterexample). -/
theorem C7_same_banding_same_output (h : Nat → String → Nat) (np : Nat)
    (t1 t2 : Frac) (docs : List Doc)
    (hv1 : validThreshold t1) (hv2 : validThreshold t2)
    (hbp : bandParams np t1 = bandParams np t2) :
    runDedup h np t1 docs = runDedup h np t2 docs := by
  unfold runDedup
  rw [if_pos hv1, if_pos hv2]
  unfold runState
  rw [hbp]

/-- Witness for C7 (amended): thresholds `1/2` and `11/20` both derive
banding `(4, 2)` at `num_perm = 8`, and the runs coincide. -/
theorem C7_same_banding_same_output_witness :
    runDedup cexHash 8 { num := 1, den := 2 } cexDocs =
      runDedup cexHash 8 { num := 11, den := 20 } cexDocs :=
  C7_same_banding_same_output cexHash 8 { num := 1, den := 2 }
    { num := 11, den := 20 } cexDocs (by decide) (by decide) (by decide)

/-- C8: a threshold outside `(0, 1]` (zero, negative, or above one) makes
the run fail fatally at startup with a `ConfigError`, before any document
is processed — the outcome does not depend on the input documents at all,
and no clamped result is ever produced. -/
theorem C8_invalid_threshold_fatal (h : Nat → String → Nat) (np : Nat)
    (t : Frac) (docs : List Doc) (hinv : ¬ validThreshold t) :
    runDedup h np t docs = Except.error ConfigError.invalidThreshold ∧
    ∀ docs2 : List Doc, runDedup h np t docs = runDedup h np t docs2 := by
  constructor
  · unfold runDedup
    rw [if_neg hinv]
  · intro docs2
    unfold runDedup
    rw [if_neg hinv, if_neg hinv]

/-- Witness for C8: threshold `2` (outside `(0, 1]`) is rejected at
startup on a nonempty input. -/
theorem C8_invalid_threshold_fatal_witness :
    runDedup hZero 8 { num := 2, den := 1 } cexDocs =
      Except.error ConfigError.invalidThreshold :=
  (C8_invalid_threshold_fatal hZero 8 { num := 2, den := 1 } cexDocs
    (by decide)).1

/-- C9: for every nonempty input and valid threshold, the first document
(index 0) is always among the retained ids: nothing precedes it in
`sha256_seen`, its query against the empty index finds nothing, so it
becomes the representative of its own cluster and the minimum of that
cluster stays 0. -/
theorem C9_first_doc_retained (h : Nat → String → Nat) (np : Nat) (t : Frac)
    (d : Doc) (rest : List Doc) (hval : validThreshold t) :
    runDedup h np t (d :: rest) =
      Except.ok
        { retained := unique_indices (runState h np t (d :: rest))
          stats := statsOf (runState h np t (d :: rest)) } ∧
    0 ∈ unique_indices (runState h np t (d :: rest)) :=
  ⟨runDedup_ok h np t (d :: rest) hval,
   key_mem_unique _ _ (inv_runState h np t (d :: rest)) 0
     (first_doc_key h np t d rest)⟩

/-- Witness for C9: index 0 is retained on a concrete run. -/
theorem C9_first_doc_retained_witness :
    0 ∈ unique_indices (runState cexHash 8 { num := 2, den := 5 } cexDocs) :=
  (C9_first_doc_retained cexHash 8 { num := 2, den := 5 }
    { sha256 := "s0", text_clean := none, text := "p p p" }
    [{ sha256 := "s1", text_clean := none, text := "q q q" },
     { sha256 := "s2", text_clean := none, text := "r r r" },
     { sha256 := "s3", text_clean := none, text := "s s s" }] (by decide)).2

/-- C10: the exact stage compares only the `sha256` field, never the
text — a later document whose `sha256` equals an earlier one's never
reaches signature computation (its index never enters `minhashes`),
whatever the two texts are; while a document whose `sha256` is fresh
always reaches signature computation, even when its text is identical to
an earlier document's. -/
theorem C10_exact_stage_hash_only (h : Nat → String → Nat) (np : Nat)
    (t : Frac) (pre mid post : List Doc) (d e : Doc) :
    (d.sha256 = e.sha256 →
      (pre.length + mid.length + 1) ∉
        (runState h np t (pre ++ d :: mid ++ e :: post)).minhashes) ∧
    (e.sha256 ∉ (pre ++ d :: mid).map Doc.sha256 →
      (pre.length + mid.length + 1) ∈
        (runState h np t (pre ++ d :: mid ++ e :: post)).minhashes) := by
  constructor
  · exact later_dup_not_in_mh h np t pre mid post d e
  · intro hfresh
    have hmm := fresh_doc_in_mh h np t (pre ++ d :: mid) post e hfresh
    have hj : (pre ++ d :: mid).length = pre.length + mid.length + 1 := by
      simp
      omega
    rw [hj] at hmm
    have hassoc : (pre ++ d :: mid) ++ e :: post = pre ++ d :: mid ++ e :: post := by
      simp
    rw [hassoc] at hmm
    exact hmm

/-- Witness for C10: a hash-equal pair with different texts never lets the
later document reach the signature stage, while a text-equal pair with
distinct hashes does. -/
theorem C10_exact_stage_hash_only_witness :
    1 ∉ (runState hZero 8 { num := 1, den := 2 }
      ([] ++ { sha256 := "A", text_clean := none, text := "x" } ::
        [] ++ { sha256 := "A", text_clean := none, text := "totally different" } :: [])).minhashes ∧
    1 ∈ (runState hZero 8 { num := 1, den := 2 }
      ([] ++ { sha256 := "A", text_clean := none, text := "same text" } ::
        [] ++ { sha256 := "B", text_clean := none, text := "same text" } :: [])).minhashes :=
  ⟨(C10_exact_stage_hash_only hZero 8 { num := 1, den := 2 } [] [] []
      { sha256 := "A", text_clean := none, text := "x" }
      { sha256 := "A", text_clean := none, text := "totally different" }).1 rfl,
   (C10_exact_stage_hash_only hZero 8 { num := 1, den := 2 } [] [] []
      { sha256 := "A", text_clean := none, text := "same text" }
      { sha256 := "B", text_clean := none, text := "same text" }).2 (by decide)⟩
